import Mathlib

/-!
Verification of the heuristic code-block boundary detector of
`src/codebase_server.py`: the language-style classifier `detect_language`,
the brace-style block finder `find_brace_block` and the indentation-style
block finder `find_indentation_block`.

Lines are modelled as lists of characters (`Line`), a file as a
`List Line`, mirroring Python's `lines` list from `readlines()` (each line
usually keeps its terminator).  Python string helpers (`lstrip`, `rstrip`,
`strip`, `count`, `endswith`, substring `in`) are modelled over the ASCII
whitespace set, which covers every input these claims are about.
-/

abbrev Line := List Char

/-- Python's default whitespace set (ASCII part), as removed by
`str.strip()` / `str.lstrip()` / `str.rstrip()` with no argument. -/
def pyIsSpace (c : Char) : Bool :=
  c = ' ' || c = '\t' || c = '\n' || c = '\r' || c = '\x0b' || c = '\x0c'

/-- Python `line.lstrip()`. -/
def lstrip (s : Line) : Line := s.dropWhile pyIsSpace

/-- Python `line.rstrip()`. -/
def rstrip (s : Line) : Line := (s.reverse.dropWhile pyIsSpace).reverse

/-- Python `line.strip()`. -/
def pyStrip (s : Line) : Line := rstrip (lstrip s)

/-- Python `not line.strip()`: the line is blank / whitespace-only. -/
def blank (s : Line) : Bool := (pyStrip s).isEmpty

/-- Python `len(line) - len(line.lstrip())`: the leading-whitespace count
used as the indentation of a line by `find_indentation_block`. -/
def indentOf (s : Line) : Nat := s.length - (lstrip s).length

/-- Python `line.count(c)` for a single character `c`. -/
def countChar (c : Char) (s : Line) : Nat := s.count c

/-- Python `line.rstrip().endswith(':')`. -/
def endsWithColon (s : Line) : Bool :=
  match (rstrip s).getLast? with
  | some c => c = ':'
  | none => false

/-- Test whether `pat` is an initial segment of `s`. -/
def startsWithSeq : Line → Line → Bool
  | [], _ => true
  | _ :: _, [] => false
  | p :: ps, c :: cs => p == c && startsWithSeq ps cs

/-- Python `pat in s` (substring containment). -/
def containsSeq (pat : Line) : Line → Bool
  | [] => startsWithSeq pat []
  | c :: cs => startsWithSeq pat (c :: cs) || containsSeq pat cs

/-- The declaration heuristic of `find_brace_block` (line 869 of the
source): `'function ' in line or 'class ' in line or 'def ' in line or
'= function' in line`. -/
def hasBlockKeyword (l : Line) : Bool :=
  containsSeq ("function ".toList) l || containsSeq ("class ".toList) l ||
  containsSeq ("def ".toList) l || containsSeq ("= function".toList) l

/-- Per-line open-brace count `line.count('\x7b')` at index `j` (out-of-range
indices read the empty line, which the finders never do on well-formed
input; see the `E`-versions below). -/
def opensAt (lines : List Line) (j : Nat) : Nat := countChar '\x7b' (lines.getD j [])

/-- Per-line close-brace count `line.count('\x7d')` at index `j`. -/
def closesAt (lines : List Line) (j : Nat) : Nat := countChar '\x7d' (lines.getD j [])

/-- Backward scan of `find_brace_block` (source lines 860-877): scan `i`,
`i-1`, ..., `0`, accumulating `{`/`}` counts onto `ob`/`cb`; on each line
first the declaration-keyword test, then the strict open-over-close test
with the updated totals; the first hit is returned, `none` when the scan
exhausts line 0. -/
def braceBack (lines : List Line) : Nat → Nat → Nat → Option Nat
  | 0, ob, cb =>
    if hasBlockKeyword (lines.getD 0 []) then some 0
    else if cb + closesAt lines 0 < ob + opensAt lines 0 then some 0
    else none
  | i+1, ob, cb =>
    if hasBlockKeyword (lines.getD (i+1) []) then some (i+1)
    else if cb + closesAt lines (i+1) < ob + opensAt lines (i+1) then some (i+1)
    else braceBack lines i (ob + opensAt lines (i+1)) (cb + closesAt lines (i+1))

/-- Forward scan of `find_brace_block` (source lines 886-896): scan `i`,
`i+1`, ... for `fuel` lines, accumulating counts onto `ob`/`cb`; the first
line whose updated close total strictly exceeds the open total is
returned.  Invoked with `fuel = len - (mi+1)`, `i = mi+1`, and the match
line's own counts as initial totals (source lines 880-881). -/
def braceFwd (lines : List Line) : Nat → Nat → Nat → Nat → Option Nat
  | 0, _, _, _ => none
  | fuel+1, i, ob, cb =>
    if ob + opensAt lines i < cb + closesAt lines i then some i
    else braceFwd lines fuel (i+1) (ob + opensAt lines i) (cb + closesAt lines i)

/-- Model of `find_brace_block(lines, match_line_index)` (source lines 843-898). -/
def find_brace_block (lines : List Line) (mi : Nat) : Nat × Nat :=
  match braceBack lines mi 0 0 with
  | none => (mi - 3, min (lines.length - 1) (mi + 3))
  | some s =>
    (s, (braceFwd lines (lines.length - (mi + 1)) (mi + 1)
          (opensAt lines mi) (closesAt lines mi)).getD (min (lines.length - 1) (mi + 3)))

/-- Secondary backward probe of `find_indentation_block` (source lines
927-932): `for j in range(i, max(0, i-5), -1)`, looking for a line whose
`rstrip()` ends with `:`.  Modelled with `fuel = i - max(0, i-5) = min i 5`
iterations starting at `j = i`. -/
def probeAux (lines : List Line) : Nat → Nat → Option Nat
  | _, 0 => none
  | j, fuel+1 =>
    if endsWithColon (lines.getD j []) then some j
    else probeAux lines (j-1) fuel

/-- Backward scan of `find_indentation_block` (source lines 911-933): skip
blank lines; a non-blank line of lower indentation ending with `:` is the
start; otherwise a non-blank line of lower indentation (at index `> 0`)
triggers the secondary probe and the scan stops with the probe's result
(`none` on probe failure, leaving the fallback start). -/
def indentBack (lines : List Line) (matchIndent : Nat) : Nat → Option Nat
  | 0 =>
    if blank (lines.getD 0 []) then none
    else if indentOf (lines.getD 0 []) < matchIndent then
      (if endsWithColon (lines.getD 0 []) then some 0 else none)
    else none
  | i+1 =>
    if blank (lines.getD (i+1) []) then indentBack lines matchIndent i
    else if indentOf (lines.getD (i+1) []) < matchIndent then
      (if endsWithColon (lines.getD (i+1) []) then some (i+1)
       else probeAux lines (i+1) (min (i+1) 5))
    else indentBack lines matchIndent i

/-- Forward scan of `find_indentation_block` (source lines 938-948): scan
`i`, `i+1`, ... for `fuel` lines, skipping blank lines; the first non-blank
line with indentation `<= blockIndent` ends the block at the preceding
index.  Invoked with `fuel = len - (mi+1)`, `i = mi+1`. -/
def indentFwd (lines : List Line) (blockIndent : Nat) : Nat → Nat → Option Nat
  | 0, _ => none
  | fuel+1, i =>
    if blank (lines.getD i []) then indentFwd lines blockIndent fuel (i+1)
    else if indentOf (lines.getD i []) ≤ blockIndent then some (i - 1)
    else indentFwd lines blockIndent fuel (i+1)

/-- Computation of `start_line` in `find_indentation_block`: the backward scan's result,
or the fallback `max(0, mi-3)` (Nat subtraction is exactly that clamp). -/
def indentStart (lines : List Line) (mi : Nat) : Nat :=
  (indentBack lines (indentOf (lines.getD mi [])) mi).getD (mi - 3)

/-- Model of `find_indentation_block(lines, match_line_index)` (source lines
900-950).  `block_indent` is recomputed from `lines[start_line]` (source
line 936) before the forward scan. -/
def find_indentation_block (lines : List Line) (mi : Nat) : Nat × Nat :=
  (indentStart lines mi,
   (indentFwd lines (indentOf (lines.getD (indentStart lines mi) []))
      (lines.length - (mi + 1)) (mi + 1)).getD (min (lines.length - 1) (mi + 3)))

/-- The two block styles returned by `detect_language` (the source uses
the strings `'indentation'` and `'braces'`). -/
inductive BlockStyle
  | indentation
  | braces
deriving DecidableEq

/-- Last index of character `c` in `s` (Python `s.rfind(c)`), `none` when
absent. -/
def rfindIdx (c : Char) : Line → Option Nat
  | [] => none
  | x :: xs =>
    match rfindIdx c xs with
    | some n => some (n+1)
    | none => if x == c then some 0 else none

/-- The extension part of `os.path.splitext(p)` (POSIX): the suffix from
the last `.` that lies after the last `/` and is preceded, within the
basename, by at least one non-`.` character; otherwise empty. -/
def splitextExt (p : Line) : Line :=
  match rfindIdx '.' p with
  | none => []
  | some dotIdx =>
    match rfindIdx '/' p with
    | some sepIdx =>
      if sepIdx + 1 ≤ dotIdx && ((p.drop (sepIdx+1)).take (dotIdx - (sepIdx+1))).any (fun ch => ch != '.') then
        p.drop dotIdx
      else []
    | none =>
      if (p.take dotIdx).any (fun ch => ch != '.') then p.drop dotIdx
      else []

/-- ASCII lowercasing of one character (Python `str.lower()` restricted to
ASCII, which covers the extension sets below). -/
def pyLower (c : Char) : Char :=
  if 'A' ≤ c && c ≤ 'Z' then Char.ofNat (c.toNat + 32) else c

/-- The indentation-language extension set of `detect_language` (source
line 832). -/
def indentExts : List Line :=
  [".py".toList, ".pyx".toList, ".pyw".toList, ".yml".toList, ".yaml".toList]

/-- The brace-language extension set of `detect_language` (source line
836). -/
def braceExts : List Line :=
  [".js".toList, ".ts".toList, ".jsx".toList, ".tsx".toList, ".java".toList,
   ".c".toList, ".cpp".toList, ".cs".toList, ".go".toList, ".php".toList,
   ".swift".toList, ".kt".toList, ".rs".toList]

/-- Model of `detect_language(filename)` (source lines 827-841):
`ext = os.path.splitext(filename.lower())[1]`, then membership in the two
fixed sets, defaulting to braces. -/
def detect_language (filename : Line) : BlockStyle :=
  if splitextExt (filename.map pyLower) ∈ indentExts then .indentation
  else if splitextExt (filename.map pyLower) ∈ braceExts then .braces
  else .braces

/-- Sum of `f k` over the inclusive index interval `[lo, lo + n)`, the
accumulator shape of both brace scans. -/
def rangeSumAux (f : Nat → Nat) : Nat → Nat → Nat
  | _, 0 => 0
  | lo, n+1 => f lo + rangeSumAux f (lo+1) n

/-- Sum of `f k` over the inclusive interval `[lo, hi]` (`0` when the
interval is empty). -/
def rangeSum (f : Nat → Nat) (lo hi : Nat) : Nat := rangeSumAux f lo (hi + 1 - lo)

theorem rangeSumAux_succ (f : Nat → Nat) :
    ∀ n lo, rangeSumAux f lo (n+1) = rangeSumAux f lo n + f (lo + n) := by
  intro n
  induction n with
  | zero => intro lo; simp [rangeSumAux]
  | succ n ih =>
    intro lo
    have h1 : rangeSumAux f lo (n+2) = f lo + rangeSumAux f (lo+1) (n+1) := rfl
    have h2 : rangeSumAux f lo (n+1) = f lo + rangeSumAux f (lo+1) n := rfl
    rw [h1, h2, ih (lo+1)]
    have h3 : lo + 1 + n = lo + (n+1) := by omega
    rw [h3, Nat.add_assoc]

theorem rangeSum_self (f : Nat → Nat) (a : Nat) : rangeSum f a a = f a := by
  unfold rangeSum
  have h : a + 1 - a = 1 := by omega
  rw [h]
  simp [rangeSumAux]

theorem rangeSum_empty (f : Nat → Nat) (lo hi : Nat) (h : hi + 1 ≤ lo) :
    rangeSum f lo hi = 0 := by
  unfold rangeSum
  have h1 : hi + 1 - lo = 0 := by omega
  rw [h1]
  rfl

theorem rangeSum_hi_succ (f : Nat → Nat) (lo hi : Nat) (h : lo ≤ hi + 1) :
    rangeSum f lo (hi+1) = rangeSum f lo hi + f (hi+1) := by
  unfold rangeSum
  have h1 : hi + 1 + 1 - lo = (hi + 1 - lo) + 1 := by omega
  rw [h1, rangeSumAux_succ]
  have h2 : lo + (hi + 1 - lo) = hi + 1 := by omega
  rw [h2]

theorem rangeSum_lo (f : Nat → Nat) (lo hi : Nat) (h : lo ≤ hi) :
    rangeSum f lo hi = f lo + rangeSum f (lo+1) hi := by
  unfold rangeSum
  have h1 : hi + 1 - lo = (hi - lo) + 1 := by omega
  have h2 : hi + 1 - (lo + 1) = hi - lo := by omega
  rw [h1, h2]
  rfl

/-- The backward-scan hit condition of the brace finder at line `k`, for a
scan started at the match line `mi`: the line contains a declaration
keyword, or the `{` total accumulated over lines `k..mi` strictly exceeds
the `}` total. -/
def braceOpenCond (lines : List Line) (mi k : Nat) : Prop :=
  hasBlockKeyword (lines.getD k []) = true ∨
    rangeSum (closesAt lines) k mi < rangeSum (opensAt lines) k mi

instance (lines : List Line) (mi k : Nat) : Decidable (braceOpenCond lines mi k) := by
  unfold braceOpenCond
  infer_instance

/-- The forward-scan stop condition of the brace finder at line `k`: the
`}` total over lines `mi+1..k`, seeded with the match line's own counts,
strictly exceeds the `{` total. -/
def braceEndCond (lines : List Line) (mi k : Nat) : Prop :=
  opensAt lines mi + rangeSum (opensAt lines) (mi+1) k <
    closesAt lines mi + rangeSum (closesAt lines) (mi+1) k

instance (lines : List Line) (mi k : Nat) : Decidable (braceEndCond lines mi k) := by
  unfold braceEndCond
  infer_instance

theorem braceBack_le (lines : List Line) :
    ∀ i ob cb s, braceBack lines i ob cb = some s → s ≤ i := by
  intro i
  induction i with
  | zero =>
    intro ob cb s h
    simp only [braceBack] at h
    split_ifs at h <;> simp_all
  | succ i ih =>
    intro ob cb s h
    simp only [braceBack] at h
    split_ifs at h
    · simp_all
    · simp_all
    · have := ih _ _ _ h
      omega

theorem braceBack_eq_none (lines : List Line) :
    ∀ i ob cb,
      (∀ k, k ≤ i → hasBlockKeyword (lines.getD k []) = false ∧
        ob + rangeSum (opensAt lines) k i ≤ cb + rangeSum (closesAt lines) k i) →
      braceBack lines i ob cb = none := by
  intro i
  induction i with
  | zero =>
    intro ob cb h
    obtain ⟨hk, hle⟩ := h 0 (le_refl 0)
    rw [rangeSum_self, rangeSum_self] at hle
    have h2 : ¬ (cb + closesAt lines 0 < ob + opensAt lines 0) := by omega
    simp only [braceBack]
    rw [if_neg (by rw [hk]; simp), if_neg h2]
  | succ i ih =>
    intro ob cb h
    obtain ⟨hk, hle⟩ := h (i+1) (le_refl _)
    rw [rangeSum_self, rangeSum_self] at hle
    have hprem : ∀ k, k ≤ i → hasBlockKeyword (lines.getD k []) = false ∧
        (ob + opensAt lines (i+1)) + rangeSum (opensAt lines) k i ≤
          (cb + closesAt lines (i+1)) + rangeSum (closesAt lines) k i := by
      intro k hki
      obtain ⟨hk2, hle2⟩ := h k (by omega)
      refine ⟨hk2, ?_⟩
      rw [rangeSum_hi_succ _ _ _ (by omega), rangeSum_hi_succ _ _ _ (by omega)] at hle2
      omega
    have hrec := ih _ _ hprem
    have h2 : ¬ (cb + closesAt lines (i+1) < ob + opensAt lines (i+1)) := by omega
    simp only [braceBack]
    rw [if_neg (by rw [hk]; simp), if_neg h2]
    exact hrec

theorem braceBack_eq_some (lines : List Line) :
    ∀ i ob cb s, s ≤ i →
      (hasBlockKeyword (lines.getD s []) = true ∨
        cb + rangeSum (closesAt lines) s i < ob + rangeSum (opensAt lines) s i) →
      (∀ k, s < k → k ≤ i → hasBlockKeyword (lines.getD k []) = false ∧
        ob + rangeSum (opensAt lines) k i ≤ cb + rangeSum (closesAt lines) k i) →
      braceBack lines i ob cb = some s := by
  intro i
  induction i with
  | zero =>
    intro ob cb s hs hcond _
    have hs0 : s = 0 := by omega
    subst hs0
    rw [rangeSum_self, rangeSum_self] at hcond
    by_cases hk : hasBlockKeyword (lines.getD 0 []) = true
    · simp only [braceBack]
      rw [if_pos hk]
    · have himb : cb + closesAt lines 0 < ob + opensAt lines 0 := by
        rcases hcond with h | h
        · exact absurd h hk
        · exact h
      simp only [braceBack]
      rw [if_neg hk, if_pos himb]
  | succ i ih =>
    intro ob cb s hs hcond hnone
    by_cases hstop : s = i + 1
    · subst hstop
      rw [rangeSum_self, rangeSum_self] at hcond
      by_cases hk : hasBlockKeyword (lines.getD (i+1) []) = true
      · simp only [braceBack]
        rw [if_pos hk]
      · have himb : cb + closesAt lines (i+1) < ob + opensAt lines (i+1) := by
          rcases hcond with h | h
          · exact absurd h hk
          · exact h
        simp only [braceBack]
        rw [if_neg hk, if_pos himb]
    · have hsi : s ≤ i := by omega
      obtain ⟨hk1, hle1⟩ := hnone (i+1) (by omega) (le_refl _)
      rw [rangeSum_self, rangeSum_self] at hle1
      have hcond' : hasBlockKeyword (lines.getD s []) = true ∨
          (cb + closesAt lines (i+1)) + rangeSum (closesAt lines) s i <
            (ob + opensAt lines (i+1)) + rangeSum (opensAt lines) s i := by
        rcases hcond with hkw | himb
        · exact Or.inl hkw
        · rw [rangeSum_hi_succ _ _ _ (by omega), rangeSum_hi_succ _ _ _ (by omega)] at himb
          exact Or.inr (by omega)
      have hnone' : ∀ k, s < k → k ≤ i → hasBlockKeyword (lines.getD k []) = false ∧
          (ob + opensAt lines (i+1)) + rangeSum (opensAt lines) k i ≤
            (cb + closesAt lines (i+1)) + rangeSum (closesAt lines) k i := by
        intro k h1 h2
        obtain ⟨a, b⟩ := hnone k h1 (by omega)
        rw [rangeSum_hi_succ _ _ _ (by omega), rangeSum_hi_succ _ _ _ (by omega)] at b
        exact ⟨a, by omega⟩
      have hrec := ih _ _ _ hsi hcond' hnone'
      have h2 : ¬ (cb + closesAt lines (i+1) < ob + opensAt lines (i+1)) := by omega
      simp only [braceBack]
      rw [if_neg (by rw [hk1]; simp), if_neg h2]
      exact hrec

theorem braceFwd_bounds (lines : List Line) :
    ∀ fuel i ob cb e, braceFwd lines fuel i ob cb = some e → i ≤ e ∧ e < i + fuel := by
  intro fuel
  induction fuel with
  | zero => intro i ob cb e h; simp [braceFwd] at h
  | succ fuel ih =>
    intro i ob cb e h
    simp only [braceFwd] at h
    split_ifs at h
    · simp_all
    · have := ih _ _ _ _ h
      omega

theorem braceFwd_eq_none (lines : List Line) :
    ∀ fuel i ob cb,
      (∀ k, i ≤ k → k < i + fuel →
        cb + rangeSum (closesAt lines) i k ≤ ob + rangeSum (opensAt lines) i k) →
      braceFwd lines fuel i ob cb = none := by
  intro fuel
  induction fuel with
  | zero => intro i ob cb _; rfl
  | succ fuel ih =>
    intro i ob cb h
    have hi := h i (le_refl i) (by omega)
    rw [rangeSum_self, rangeSum_self] at hi
    have hprem : ∀ k, i+1 ≤ k → k < (i+1) + fuel →
        (cb + closesAt lines i) + rangeSum (closesAt lines) (i+1) k ≤
          (ob + opensAt lines i) + rangeSum (opensAt lines) (i+1) k := by
      intro k h1 h2
      have := h k (by omega) (by omega)
      rw [rangeSum_lo _ _ _ (by omega), rangeSum_lo (opensAt lines) _ _ (by omega)] at this
      omega
    have hrec := ih _ _ _ hprem
    have h2 : ¬ (ob + opensAt lines i < cb + closesAt lines i) := by omega
    simp only [braceFwd]
    rw [if_neg h2]
    exact hrec

theorem braceFwd_eq_some (lines : List Line) :
    ∀ fuel i ob cb e, i ≤ e → e < i + fuel →
      ob + rangeSum (opensAt lines) i e < cb + rangeSum (closesAt lines) i e →
      (∀ k, i ≤ k → k < e →
        cb + rangeSum (closesAt lines) i k ≤ ob + rangeSum (opensAt lines) i k) →
      braceFwd lines fuel i ob cb = some e := by
  intro fuel
  induction fuel with
  | zero => intro i ob cb e h1 h2 _ _; omega
  | succ fuel ih =>
    intro i ob cb e h1 h2 hcond hnone
    by_cases he : e = i
    · subst he
      rw [rangeSum_self, rangeSum_self] at hcond
      simp only [braceFwd]
      rw [if_pos hcond]
    · have hi := hnone i (le_refl i) (by omega)
      rw [rangeSum_self, rangeSum_self] at hi
      have hcond' : (ob + opensAt lines i) + rangeSum (opensAt lines) (i+1) e <
          (cb + closesAt lines i) + rangeSum (closesAt lines) (i+1) e := by
        rw [rangeSum_lo _ _ _ (by omega), rangeSum_lo (closesAt lines) _ _ (by omega)] at hcond
        omega
      have hnone' : ∀ k, i+1 ≤ k → k < e →
          (cb + closesAt lines i) + rangeSum (closesAt lines) (i+1) k ≤
            (ob + opensAt lines i) + rangeSum (opensAt lines) (i+1) k := by
        intro k hk1 hk2
        have := hnone k (by omega) hk2
        rw [rangeSum_lo _ _ _ (by omega), rangeSum_lo (opensAt lines) _ _ (by omega)] at this
        omega
      have hrec := ih _ _ _ _ (by omega) (by omega) hcond' hnone'
      have h2 : ¬ (ob + opensAt lines i < cb + closesAt lines i) := by omega
      simp only [braceFwd]
      rw [if_neg h2]
      exact hrec

/-- C2: in the brace-style finder, if the backward scan down to line 0
finds no line containing a declaration keyword and no line where the
running open-brace total (accumulated over the scanned lines up to and
including the match line) strictly exceeds the running close-brace total,
then the forward scan is not performed and the result is exactly the
fixed fallback window `(max(0, mi-3), min(len-1, mi+3))`; the witness
instantiates this at `["a",...,"g"]` with match index 3, giving `(0, 6)`. -/
theorem brace_no_opener_fallback (lines : List Line) (mi : Nat)
    (hmi : mi < lines.length)
    (h : ∀ k, k < mi + 1 → ¬ braceOpenCond lines mi k) :
    find_brace_block lines mi = (mi - 3, min (lines.length - 1) (mi + 3)) := by
  have hnone : braceBack lines mi 0 0 = none := by
    apply braceBack_eq_none
    intro k hk
    have h1 := h k (by omega)
    unfold braceOpenCond at h1
    push_neg at h1
    obtain ⟨ha, hb⟩ := h1
    refine ⟨by simpa using ha, by omega⟩
  unfold find_brace_block
  rw [hnone]

/-- Witness for C2: seven single-letter lines, match index 3, no opener
anywhere, result exactly the clipped fallback window `(0, 6)`. -/
theorem brace_no_opener_fallback_witness :
    find_brace_block ["a".toList, "b".toList, "c".toList, "d".toList,
      "e".toList, "f".toList, "g".toList] 3 = (0, 6) :=
  brace_no_opener_fallback ["a".toList, "b".toList, "c".toList, "d".toList,
      "e".toList, "f".toList, "g".toList] 3 (by decide) (by decide)

/-- C3: in the brace-style finder's backward scan, `start_line` is the
first line `s` (scanning from the match line toward line 0) that either
contains a declaration keyword or makes the running open-brace total over
lines `s..mi` strictly exceed the running close-brace total; the first
line satisfying either disjunct wins, so a hit nearer the match is always
preferred over any hit further back. -/
theorem brace_back_first_hit (lines : List Line) (mi s : Nat)
    (hmi : mi < lines.length) (hs : s ≤ mi)
    (hcond : braceOpenCond lines mi s)
    (hafter : ∀ k, k < mi + 1 → s < k → ¬ braceOpenCond lines mi k) :
    (find_brace_block lines mi).1 = s := by
  have hsome : braceBack lines mi 0 0 = some s := by
    apply braceBack_eq_some lines mi 0 0 s hs
    · unfold braceOpenCond at hcond
      rcases hcond with h | h
      · exact Or.inl h
      · exact Or.inr (by omega)
    · intro k h1 h2
      have h3 := hafter k (by omega) h1
      unfold braceOpenCond at h3
      push_neg at h3
      obtain ⟨ha, hb⟩ := h3
      exact ⟨by simpa using ha, by omega⟩
  unfold find_brace_block
  rw [hsome]

/-- Witness for C3: line 0 carries a brace imbalance, line 2 a `class `
keyword; the keyword line nearer the match (index 2) is chosen. -/
theorem brace_back_first_hit_witness :
    (find_brace_block ["\x7b".toList, "a".toList, "class B:".toList, "b".toList] 3).1 = 2 :=
  brace_back_first_hit ["\x7b".toList, "a".toList, "class B:".toList, "b".toList] 3 2
    (by decide) (by decide) (by decide) (by decide)

/-- C4: whenever the brace finder's backward scan marks an opening found,
the forward scan runs from `mi+1` with the running totals seeded by the
match line's own brace counts (not the backward scan's accumulated
totals); `end_line` is the first line where the running close total
strictly exceeds the open total, and if no such line exists before the end
of file `end_line` stays at the fallback `min(len-1, mi+3)`. -/
theorem brace_forward_spec (lines : List Line) (mi s : Nat)
    (hmi : mi < lines.length)
    (hb : braceBack lines mi 0 0 = some s) :
    ((∀ k, k < lines.length → mi < k → ¬ braceEndCond lines mi k) →
      (find_brace_block lines mi).2 = min (lines.length - 1) (mi + 3)) ∧
    (∀ e, e < lines.length → mi < e → braceEndCond lines mi e →
      (∀ k, k < e → mi < k → ¬ braceEndCond lines mi k) →
      (find_brace_block lines mi).2 = e) := by
  constructor
  · intro h
    have hfwd : braceFwd lines (lines.length - (mi + 1)) (mi + 1)
        (opensAt lines mi) (closesAt lines mi) = none := by
      apply braceFwd_eq_none
      intro k h1 h2
      have h3 := h k (by omega) (by omega)
      unfold braceEndCond at h3
      omega
    unfold find_brace_block
    rw [hb, hfwd]
    rfl
  · intro e he hmie hcond hbefore
    have hfwd : braceFwd lines (lines.length - (mi + 1)) (mi + 1)
        (opensAt lines mi) (closesAt lines mi) = some e := by
      apply braceFwd_eq_some
      · omega
      · omega
      · unfold braceEndCond at hcond; omega
      · intro k h1 h2
        have h3 := hbefore k (by omega) (by omega)
        unfold braceEndCond at h3
        omega
    unfold find_brace_block
    rw [hb, hfwd]
    rfl

/-- Witness for C4: the spec's own brace example; the opening is found on
line 0, the forward scan (seeded with the match line's zero counts) stops
at the lone `}` on line 2. -/
theorem brace_forward_spec_witness :
    (find_brace_block ["function f() \x7b".toList, "  x = 1;".toList, "\x7d".toList] 1).2 = 2 :=
  (brace_forward_spec ["function f() \x7b".toList, "  x = 1;".toList, "\x7d".toList] 1 0
      (by decide) (by decide)).2 2 (by decide) (by decide) (by decide) (by decide)

theorem probeAux_le (lines : List Line) :
    ∀ fuel j s, probeAux lines j fuel = some s → s ≤ j := by
  intro fuel
  induction fuel with
  | zero => intro j s h; simp [probeAux] at h
  | succ fuel ih =>
    intro j s h
    simp only [probeAux] at h
    split_ifs at h
    · simp_all
    · have := ih _ _ h
      omega

theorem indentBack_le (lines : List Line) (mI : Nat) :
    ∀ i s, indentBack lines mI i = some s → s ≤ i := by
  intro i
  induction i with
  | zero =>
    intro s h
    simp only [indentBack] at h
    split_ifs at h <;> simp_all
  | succ i ih =>
    intro s h
    simp only [indentBack] at h
    split_ifs at h
    · have := ih _ h
      omega
    · simp_all
    · have := probeAux_le lines _ _ _ h
      omega
    · have := ih _ h
      omega

theorem indentFwd_bounds (lines : List Line) (bI : Nat) :
    ∀ fuel i e, 1 ≤ i → indentFwd lines bI fuel i = some e →
      i - 1 ≤ e ∧ e + 2 ≤ i + fuel := by
  intro fuel
  induction fuel with
  | zero => intro i e _ h; simp [indentFwd] at h
  | succ fuel ih =>
    intro i e hi h
    simp only [indentFwd] at h
    split_ifs at h
    · have := ih _ _ (by omega) h
      omega
    · have he : e = i - 1 := by simp_all
      omega
    · have := ih _ _ (by omega) h
      omega

theorem indentStart_le (lines : List Line) (mi : Nat) : indentStart lines mi ≤ mi := by
  unfold indentStart
  cases hb : indentBack lines (indentOf (lines.getD mi [])) mi with
  | none =>
    show mi - 3 ≤ mi
    omega
  | some s =>
    show s ≤ mi
    exact indentBack_le lines _ mi s hb

/-- The four-line indentation example shared by several witnesses. -/
def exPy : List Line :=
  ["def f():".toList, "    x = 1".toList, "    y = 2".toList, "z = 3".toList]

/-- C1: for every non-empty line sequence and in-bounds match index, both
finders return `(start_line, end_line)` with
`0 <= start_line <= mi <= end_line <= len-1` (the lower bound `0 <=
start_line` is implicit in the Nat encoding). -/
theorem block_range_bounds (lines : List Line) (mi : Nat)
    (h0 : 0 < lines.length) (hmi : mi < lines.length) :
    ((find_brace_block lines mi).1 ≤ mi ∧ mi ≤ (find_brace_block lines mi).2 ∧
      (find_brace_block lines mi).2 ≤ lines.length - 1) ∧
    ((find_indentation_block lines mi).1 ≤ mi ∧ mi ≤ (find_indentation_block lines mi).2 ∧
      (find_indentation_block lines mi).2 ≤ lines.length - 1) := by
  constructor
  · unfold find_brace_block
    cases hb : braceBack lines mi 0 0 with
    | none =>
      show mi - 3 ≤ mi ∧ mi ≤ min (lines.length - 1) (mi + 3) ∧
        min (lines.length - 1) (mi + 3) ≤ lines.length - 1
      omega
    | some s =>
      have hsle := braceBack_le lines mi 0 0 s hb
      cases hf : braceFwd lines (lines.length - (mi+1)) (mi+1)
          (opensAt lines mi) (closesAt lines mi) with
      | none =>
        show s ≤ mi ∧ mi ≤ min (lines.length - 1) (mi + 3) ∧
          min (lines.length - 1) (mi + 3) ≤ lines.length - 1
        omega
      | some e =>
        have hbd := braceFwd_bounds lines _ _ _ _ e hf
        show s ≤ mi ∧ mi ≤ e ∧ e ≤ lines.length - 1
        omega
  · have hstart := indentStart_le lines mi
    have hfst : (find_indentation_block lines mi).1 = indentStart lines mi := rfl
    rw [hfst]
    refine ⟨hstart, ?_⟩
    have hsnd : (find_indentation_block lines mi).2 =
        (indentFwd lines (indentOf (lines.getD (indentStart lines mi) []))
          (lines.length - (mi + 1)) (mi + 1)).getD (min (lines.length - 1) (mi + 3)) := rfl
    rw [hsnd]
    cases hf : indentFwd lines (indentOf (lines.getD (indentStart lines mi) []))
        (lines.length - (mi + 1)) (mi + 1) with
    | none =>
      show mi ≤ min (lines.length - 1) (mi + 3) ∧
        min (lines.length - 1) (mi + 3) ≤ lines.length - 1
      omega
    | some e =>
      have hbd := indentFwd_bounds lines _ _ _ e (by omega) hf
      show mi ≤ e ∧ e ≤ lines.length - 1
      omega

/-- Witness for C1 at the spec's four-line indentation example with match
index 1: both finders return in-bounds ranges containing the match. -/
theorem block_range_bounds_witness :
    ((find_brace_block exPy 1).1 ≤ 1 ∧ 1 ≤ (find_brace_block exPy 1).2 ∧
      (find_brace_block exPy 1).2 ≤ exPy.length - 1) ∧
    ((find_indentation_block exPy 1).1 ≤ 1 ∧ 1 ≤ (find_indentation_block exPy 1).2 ∧
      (find_indentation_block exPy 1).2 ≤ exPy.length - 1) :=
  block_range_bounds exPy 1 (by decide) (by decide)

theorem indentBack_skip (lines : List Line) (mI : Nat) :
    ∀ i0 i, i ≤ i0 →
      (∀ k, i < k → k ≤ i0 → blank (lines.getD k []) = true ∨
        ¬ (indentOf (lines.getD k []) < mI)) →
      indentBack lines mI i0 = indentBack lines mI i := by
  intro i0
  induction i0 with
  | zero =>
    intro i h _
    have h0 : i = 0 := by omega
    rw [h0]
  | succ i0 ih =>
    intro i hle h
    by_cases hi : i = i0 + 1
    · rw [hi]
    · have hstep : indentBack lines mI (i0+1) = indentBack lines mI i0 := by
        rcases h (i0+1) (by omega) (le_refl _) with hb | hind
        · simp only [indentBack]
          rw [if_pos hb]
        · by_cases hb : blank (lines.getD (i0+1) []) = true
          · simp only [indentBack]
            rw [if_pos hb]
          · simp only [indentBack]
            rw [if_neg hb, if_neg hind]
      rw [hstep]
      exact ih i (by omega) (fun k a b => h k a (by omega))

theorem indentBack_probe_step (lines : List Line) (mI : Nat) (i : Nat)
    (hi : 1 ≤ i)
    (hb : blank (lines.getD i []) = false)
    (hind : indentOf (lines.getD i []) < mI)
    (hcolon : endsWithColon (lines.getD i []) = false) :
    indentBack lines mI i = probeAux lines i (min i 5) := by
  cases i with
  | zero => omega
  | succ t =>
    simp only [indentBack]
    rw [if_neg (by rw [hb]; simp), if_pos hind, if_neg (by rw [hcolon]; simp)]

theorem probeAux_eq_some (lines : List Line) :
    ∀ fuel j0 j, j ≤ j0 → j0 < j + fuel →
      endsWithColon (lines.getD j []) = true →
      (∀ k, j < k → k ≤ j0 → endsWithColon (lines.getD k []) = false) →
      probeAux lines j0 fuel = some j := by
  intro fuel
  induction fuel with
  | zero => intro j0 j h1 h2 _ _; omega
  | succ fuel ih =>
    intro j0 j h1 h2 hc hnone
    by_cases hj : j0 = j
    · rw [hj]
      simp only [probeAux]
      rw [if_pos hc]
    · have hcf := hnone j0 (by omega) (le_refl _)
      simp only [probeAux]
      rw [if_neg (by rw [hcf]; simp)]
      exact ih (j0-1) j (by omega) (by omega) hc (fun k a b => hnone k a (by omega))

theorem probeAux_eq_none (lines : List Line) :
    ∀ fuel j0,
      (∀ k, k ≤ j0 → j0 < k + fuel → endsWithColon (lines.getD k []) = false) →
      probeAux lines j0 fuel = none := by
  intro fuel
  induction fuel with
  | zero => intro j0 _; rfl
  | succ fuel ih =>
    intro j0 h
    have hc := h j0 (le_refl _) (by omega)
    simp only [probeAux]
    rw [if_neg (by rw [hc]; simp)]
    exact ih (j0-1) (fun k hk1 hk2 => h k (by omega) (by omega))

/-- The file exhibiting the probe-range error of C5: the only `:`-line is
exactly 5 lines before the lower-indent line at index 5. -/
def exProbe : List Line :=
  ["def g():".toList, "b".toList, "b".toList, "b".toList, "b".toList,
   "a".toList, "    x".toList]

/-- Counterexample for C5: in `exProbe` with match index 6 the outer
backward scan stops at line 5 (non-blank, lower indentation, no trailing
`:`), the nearest `:`-line is line 0 — exactly 5 lines before line 5 — yet
the probe does not reach it: the result start is the fallback 3, not 0. -/
theorem indent_probe_claim_counterexample :
    endsWithColon (exProbe.getD 0 []) = true ∧
    (∀ k, k < 6 → 1 ≤ k → endsWithColon (exProbe.getD k []) = false) ∧
    blank (exProbe.getD 5 []) = false ∧
    indentOf (exProbe.getD 5 []) < indentOf (exProbe.getD 6 []) ∧
    endsWithColon (exProbe.getD 5 []) = false ∧
    find_indentation_block exProbe 6 = (3, 6) ∧
    (find_indentation_block exProbe 6).1 ≠ 0 := by decide

/-- C5 (amended): when the indentation finder's backward scan stops at a
non-blank line `i` of indentation strictly below the match line's, not
ending with `:`, with `i > 0`, the secondary probe covers exactly the
indices `j` with `1 <= j`, `j <= i` and `i <= j + 4` (i.e. `j` from `i`
down to `max(0, i-5)+1`; a `:`-line exactly 5 before `i`, or line 0, is
out of range); if a `:`-line exists in that range the nearest one becomes
`start_line`, and otherwise `start_line` stays at the fallback `mi - 3` —
the outer scan stops either way. -/
theorem indent_probe_spec (lines : List Line) (mi i : Nat)
    (hmi : mi < lines.length)
    (hi1 : 1 ≤ i) (hile : i ≤ mi)
    (hskip : ∀ k, k < mi + 1 → i < k → blank (lines.getD k []) = true ∨
      ¬ (indentOf (lines.getD k []) < indentOf (lines.getD mi [])))
    (hb : blank (lines.getD i []) = false)
    (hind : indentOf (lines.getD i []) < indentOf (lines.getD mi []))
    (hcolon : endsWithColon (lines.getD i []) = false) :
    (∀ j, 1 ≤ j → j ≤ i → i ≤ j + 4 →
      endsWithColon (lines.getD j []) = true →
      (∀ k, k < i + 1 → j < k → endsWithColon (lines.getD k []) = false) →
      (find_indentation_block lines mi).1 = j) ∧
    ((∀ j, j < i + 1 → 1 ≤ j → i ≤ j + 4 → endsWithColon (lines.getD j []) = false) →
      (find_indentation_block lines mi).1 = mi - 3) := by
  have hback : indentBack lines (indentOf (lines.getD mi [])) mi
      = probeAux lines i (min i 5) := by
    rw [indentBack_skip lines _ mi i hile (fun k a b => hskip k (by omega) a)]
    exact indentBack_probe_step lines _ i hi1 hb hind hcolon
  have hfst : (find_indentation_block lines mi).1 = indentStart lines mi := rfl
  constructor
  · intro j hj1 hj2 hj3 hc hnone
    have hp : probeAux lines i (min i 5) = some j := by
      apply probeAux_eq_some lines (min i 5) i j hj2 (by omega) hc
      intro k a b
      exact hnone k (by omega) a
    rw [hfst]
    unfold indentStart
    rw [hback, hp]
    rfl
  · intro hnone
    have hp : probeAux lines i (min i 5) = none := by
      apply probeAux_eq_none
      intro k hk1 hk2
      exact hnone k (by omega) (by omega) (by omega)
    rw [hfst]
    unfold indentStart
    rw [hback, hp]
    rfl

/-- The file exercising a successful probe: the `:`-line at index 1 is
exactly 4 lines before the lower-indent line at index 5, the last index
the probe visits. -/
def exProbeHit : List Line :=
  ["z".toList, "case:".toList, "b".toList, "b".toList, "b".toList,
   "a".toList, "    m".toList]

/-- Witness for C5 (amended): the probe finds the `:`-line at index 1,
4 lines before the scan stop at index 5, and it becomes the start. -/
theorem indent_probe_spec_witness :
    (find_indentation_block exProbeHit 6).1 = 1 :=
  (indent_probe_spec exProbeHit 6 5 (by decide) (by decide) (by decide) (by decide)
      (by decide) (by decide) (by decide)).1 1 (by decide) (by decide) (by decide)
      (by decide) (by decide)

/-- C6: on `["def f():", "    x = 1", "    y = 2", "z = 3"]` with match
index 1, the backward scan selects line 0 (lower indentation, ends with
`:`), the forward scan stops at `"z = 3"` (indentation 0 <= block indent
0) at index 3, and the result is `(0, 2)`. -/
theorem indentation_example_block : find_indentation_block exPy 1 = (0, 2) := by decide

/-- C8: `detect_language` is a pure total function of the filename: it
returns the indentation style exactly when the lowercased filename's
extension is one of `.py`, `.pyx`, `.pyw`, `.yml`, `.yaml`, and the brace
style for every other filename (unknown extensions and extension-less
names included). -/
theorem detect_language_spec (filename : Line) :
    (detect_language filename = BlockStyle.indentation ↔
      splitextExt (filename.map pyLower) ∈ indentExts) ∧
    (detect_language filename = BlockStyle.braces ↔
      splitextExt (filename.map pyLower) ∉ indentExts) := by
  unfold detect_language
  by_cases h : splitextExt (filename.map pyLower) ∈ indentExts
  · rw [if_pos h]
    simp [h]
  · rw [if_neg h]
    by_cases h2 : splitextExt (filename.map pyLower) ∈ braceExts
    · rw [if_pos h2]
      simp [h]
    · rw [if_neg h2]
      simp [h]

/-- Witness for C8 at the mixed-case filename `"Foo.PY"`, whose lowered
extension `.py` selects the indentation style. -/
theorem detect_language_spec_witness :
    (detect_language "Foo.PY".toList = BlockStyle.indentation ↔
      splitextExt ("Foo.PY".toList.map pyLower) ∈ indentExts) ∧
    (detect_language "Foo.PY".toList = BlockStyle.braces ↔
      splitextExt ("Foo.PY".toList.map pyLower) ∉ indentExts) :=
  detect_language_spec "Foo.PY".toList

theorem lstrip_head_not_space (l : Line) :
    ∀ c rest, lstrip l = c :: rest → pyIsSpace c = false := by
  induction l with
  | nil => intro c rest h; simp [lstrip] at h
  | cons a as ih =>
    intro c rest h
    unfold lstrip at h
    rw [List.dropWhile_cons] at h
    split_ifs at h with hsp
    · exact ih c rest h
    · cases h
      simp_all

theorem rstrip_eq_nil_iff (l : Line) :
    rstrip l = [] ↔ ∀ c ∈ l, pyIsSpace c := by
  unfold rstrip
  rw [List.reverse_eq_nil_iff, List.dropWhile_eq_nil_iff]
  constructor
  · intro h c hc
    exact h c (List.mem_reverse.mpr hc)
  · intro h c hc
    exact h c (List.mem_reverse.mp hc)

theorem blank_lstrip (l : Line) (h : blank l = true) : lstrip l = [] := by
  unfold blank pyStrip at h
  have h2 : rstrip (lstrip l) = [] := by
    cases hx : rstrip (lstrip l) <;> simp_all [List.isEmpty]
  have h3 : ∀ c ∈ lstrip l, pyIsSpace c := (rstrip_eq_nil_iff _).mp h2
  cases hl : lstrip l with
  | nil => rfl
  | cons c rest =>
    have hns := lstrip_head_not_space l c rest hl
    have hs := h3 c (by rw [hl]; exact List.mem_cons_self c rest)
    simp_all

theorem blank_all_space (l : Line) (h : blank l = true) : ∀ c ∈ l, pyIsSpace c := by
  have h1 := blank_lstrip l h
  unfold lstrip at h1
  exact List.dropWhile_eq_nil_iff.mp h1

theorem endsWithColon_of_blank (l : Line) (h : blank l = true) :
    endsWithColon l = false := by
  have h2 : rstrip l = [] := (rstrip_eq_nil_iff l).mpr (blank_all_space l h)
  unfold endsWithColon
  rw [h2]
  rfl

/-- The file exhibiting C10's broken consequence: the match line is
whitespace-only of length 1 while a longer, deeply indented non-blank line
follows. -/
def exBlankMatch : List Line := ["\n".toList, "      x\n".toList]

/-- Counterexample for C10: with a whitespace-only match line (just a
terminator, `match_indent = 1`), the non-blank line `"      x\n"` has
indentation 6, which is not strictly less than `match_indent`. -/
theorem blank_match_indent_counterexample :
    blank (exBlankMatch.getD 0 []) = true ∧
    indentOf (exBlankMatch.getD 0 []) = (exBlankMatch.getD 0 []).length ∧
    blank (exBlankMatch.getD 1 []) = false ∧
    ¬ (indentOf (exBlankMatch.getD 1 []) < indentOf (exBlankMatch.getD 0 [])) := by
  decide

/-- C10 (amended): when the match line is whitespace-only, `match_indent`
is the full character length of the line (the terminator counts as leading
whitespace, since the computation is `len(line) - len(line.lstrip())` and
`lstrip` strips the terminator); consequently every non-blank line *whose
length is at most the match line's length* has indentation strictly less
than `match_indent` (longer non-blank lines need not, see the
counterexample). -/
theorem blank_match_indent_spec (lines : List Line) (mi : Nat)
    (hws : blank (lines.getD mi []) = true) :
    indentOf (lines.getD mi []) = (lines.getD mi []).length ∧
    ∀ l, l ∈ lines → blank l = false → l.length ≤ (lines.getD mi []).length →
      indentOf l < indentOf (lines.getD mi []) := by
  have hls : lstrip (lines.getD mi []) = [] := blank_lstrip _ hws
  constructor
  · unfold indentOf
    rw [hls]
    simp
  · intro l _ hbl hlen
    have h1 : lstrip l ≠ [] := by
      intro hcon
      unfold blank pyStrip at hbl
      rw [hcon] at hbl
      simp [rstrip] at hbl
    have h2 : 0 < (lstrip l).length := List.length_pos.mpr h1
    have h3 : (lstrip l).length ≤ l.length := by
      unfold lstrip
      exact (List.dropWhile_suffix pyIsSpace).length_le
    unfold indentOf
    rw [hls]
    simp only [List.length_nil]
    omega

/-- Witness for C10 (amended): a two-space-plus-terminator match line has
`match_indent` 3, exceeding the indentation of the shorter non-blank
line `"x"`. -/
theorem blank_match_indent_spec_witness :
    indentOf (["  \n".toList, "x".toList].getD 0 []) =
      (["  \n".toList, "x".toList].getD 0 []).length ∧
    ∀ l, l ∈ ["  \n".toList, "x".toList] → blank l = false →
      l.length ≤ (["  \n".toList, "x".toList].getD 0 []).length →
      indentOf l < indentOf (["  \n".toList, "x".toList].getD 0 []) :=
  blank_match_indent_spec ["  \n".toList, "x".toList] 0 (by decide)

theorem probeAux_colon (lines : List Line) :
    ∀ fuel j s, probeAux lines j fuel = some s →
      endsWithColon (lines.getD s []) = true := by
  intro fuel
  induction fuel with
  | zero => intro j s h; simp [probeAux] at h
  | succ fuel ih =>
    intro j s h
    simp only [probeAux] at h
    split_ifs at h with hc
    · cases h
      exact hc
    · exact ih _ _ h

theorem indentBack_nonblank (lines : List Line) (mI : Nat) :
    ∀ i s, indentBack lines mI i = some s → blank (lines.getD s []) = false := by
  intro i
  induction i with
  | zero =>
    intro s h
    simp only [indentBack] at h
    by_cases hb : blank (lines.getD 0 []) = true
    · rw [if_pos hb] at h
      simp at h
    · rw [if_neg hb] at h
      by_cases hind : indentOf (lines.getD 0 []) < mI
      · rw [if_pos hind] at h
        by_cases hc : endsWithColon (lines.getD 0 []) = true
        · rw [if_pos hc] at h
          have hs : s = 0 := by simp_all
          rw [hs]
          simpa using hb
        · rw [if_neg hc] at h
          simp at h
      · rw [if_neg hind] at h
        simp at h
  | succ i ih =>
    intro s h
    simp only [indentBack] at h
    by_cases hb : blank (lines.getD (i+1) []) = true
    · rw [if_pos hb] at h
      exact ih _ h
    · rw [if_neg hb] at h
      by_cases hind : indentOf (lines.getD (i+1) []) < mI
      · rw [if_pos hind] at h
        by_cases hc : endsWithColon (lines.getD (i+1) []) = true
        · rw [if_pos hc] at h
          have hs : s = i + 1 := by simp_all
          rw [hs]
          simpa using hb
        · rw [if_neg hc] at h
          have hcol := probeAux_colon lines _ _ _ h
          cases hbs : blank (lines.getD s []) with
          | false => rfl
          | true =>
            rw [endsWithColon_of_blank _ hbs] at hcol
            cases hcol
      · rw [if_neg hind] at h
        exact ih _ h

theorem indentFwd_terminator (lines : List Line) (bI : Nat) :
    ∀ fuel i e, 1 ≤ i → indentFwd lines bI fuel i = some e →
      blank (lines.getD (e+1) []) = false ∧ indentOf (lines.getD (e+1) []) ≤ bI := by
  intro fuel
  induction fuel with
  | zero => intro i e _ h; simp [indentFwd] at h
  | succ fuel ih =>
    intro i e hi h
    simp only [indentFwd] at h
    split_ifs at h with h1 h2
    · exact ih _ _ (by omega) h
    · have he : i - 1 = e := by simp_all
      have he1 : e + 1 = i := by omega
      rw [he1]
      exact ⟨by simpa using h1, h2⟩
    · exact ih _ _ (by omega) h

/-- Two files of equal length whose lines agree except possibly on the
whitespace content of lines that are blank in both. -/
def sameModBlank (A B : List Line) : Prop :=
  A.length = B.length ∧
  ∀ k, k < A.length → A.getD k [] = B.getD k [] ∨
    (blank (A.getD k []) = true ∧ blank (B.getD k []) = true)

instance (A B : List Line) : Decidable (sameModBlank A B) := by
  unfold sameModBlank
  infer_instance

theorem getD_oob (l : List Line) : ∀ k, l.length ≤ k → l.getD k [] = [] := by
  induction l with
  | nil => intro k _; cases k <;> rfl
  | cons a as ih =>
    intro k hk
    cases k with
    | zero => simp at hk
    | succ n => exact ih n (by simpa using hk)

theorem sameModBlank_getD (A B : List Line) (h : sameModBlank A B) (k : Nat) :
    A.getD k [] = B.getD k [] ∨
      (blank (A.getD k []) = true ∧ blank (B.getD k []) = true) := by
  by_cases hk : k < A.length
  · exact h.2 k hk
  · left
    rw [getD_oob A k (by omega), getD_oob B k (by have := h.1; omega)]

theorem smb_blank_eq (A B : List Line) (h : sameModBlank A B) (k : Nat) :
    blank (A.getD k []) = blank (B.getD k []) := by
  rcases sameModBlank_getD A B h k with he | ⟨h1, h2⟩
  · rw [he]
  · rw [h1, h2]

theorem smb_colon_eq (A B : List Line) (h : sameModBlank A B) (k : Nat) :
    endsWithColon (A.getD k []) = endsWithColon (B.getD k []) := by
  rcases sameModBlank_getD A B h k with he | ⟨h1, h2⟩
  · rw [he]
  · rw [endsWithColon_of_blank _ h1, endsWithColon_of_blank _ h2]

theorem smb_eq_of_nonblank (A B : List Line) (h : sameModBlank A B) (k : Nat)
    (hb : blank (A.getD k []) = false) : A.getD k [] = B.getD k [] := by
  rcases sameModBlank_getD A B h k with he | ⟨h1, _⟩
  · exact he
  · rw [h1] at hb
    simp at hb

theorem probeAux_congr (A B : List Line) (h : sameModBlank A B) :
    ∀ fuel j, probeAux A j fuel = probeAux B j fuel := by
  intro fuel
  induction fuel with
  | zero => intro j; rfl
  | succ fuel ih =>
    intro j
    simp only [probeAux]
    rw [smb_colon_eq A B h j]
    by_cases hc : endsWithColon (B.getD j []) = true
    · rw [if_pos hc, if_pos hc]
    · rw [if_neg hc, if_neg hc]
      exact ih (j-1)

theorem indentBack_congr (A B : List Line) (mI : Nat) (h : sameModBlank A B) :
    ∀ i, indentBack A mI i = indentBack B mI i := by
  intro i
  induction i with
  | zero =>
    by_cases hb : blank (A.getD 0 []) = true
    · have hb2 : blank (B.getD 0 []) = true := by
        rw [← smb_blank_eq A B h 0]
        exact hb
      simp only [indentBack]
      rw [if_pos hb, if_pos hb2]
    · have heq : A.getD 0 [] = B.getD 0 [] :=
        smb_eq_of_nonblank A B h 0 (by simpa using hb)
      simp only [indentBack]
      rw [heq]
  | succ i ih =>
    by_cases hb : blank (A.getD (i+1) []) = true
    · have hb2 : blank (B.getD (i+1) []) = true := by
        rw [← smb_blank_eq A B h (i+1)]
        exact hb
      simp only [indentBack]
      rw [if_pos hb, if_pos hb2]
      exact ih
    · have heq : A.getD (i+1) [] = B.getD (i+1) [] :=
        smb_eq_of_nonblank A B h (i+1) (by simpa using hb)
      simp only [indentBack]
      rw [heq, ih, probeAux_congr A B h (min (i+1) 5) (i+1)]

theorem indentFwd_congr (A B : List Line) (bI : Nat) (h : sameModBlank A B) :
    ∀ fuel i, indentFwd A bI fuel i = indentFwd B bI fuel i := by
  intro fuel
  induction fuel with
  | zero => intro i; rfl
  | succ fuel ih =>
    intro i
    by_cases hb : blank (A.getD i []) = true
    · have hb2 : blank (B.getD i []) = true := by
        rw [← smb_blank_eq A B h i]
        exact hb
      simp only [indentFwd]
      rw [if_pos hb, if_pos hb2]
      exact ih (i+1)
    · have heq : A.getD i [] = B.getD i [] := smb_eq_of_nonblank A B h i (by simpa using hb)
      simp only [indentFwd]
      rw [heq, ih (i+1)]

/-- The C7 counterexample pair: identical files except for the
whitespace-only line 1 (`""` versus eight spaces). -/
def exBlankA : List Line :=
  ["a".toList, "".toList, "x".toList, "b".toList, "    m".toList,
   "  q".toList, "r".toList]

/-- Second component of the C7 counterexample pair. -/
def exBlankB : List Line :=
  ["a".toList, "        ".toList, "x".toList, "b".toList, "    m".toList,
   "  q".toList, "r".toList]

/-- Counterexample for C7: the two files agree except on the whitespace
content of the (blank) line 1, the backward scan fails so the fallback
start is that blank line, its length becomes `block_indent`, and the two
runs return different end lines — a blank line's content corrupted the
indentation reference. -/
theorem indent_blank_corrupts_counterexample :
    sameModBlank exBlankA exBlankB ∧
    blank (exBlankA.getD 1 []) = true ∧ blank (exBlankB.getD 1 []) = true ∧
    find_indentation_block exBlankA 4 = (1, 5) ∧
    find_indentation_block exBlankB 4 = (1, 4) ∧
    find_indentation_block exBlankA 4 ≠ find_indentation_block exBlankB 4 := by
  decide

/-- C7 (amended): in the indentation finder, (1) the backward scan never
selects a blank line as the block start, (2) the forward scan is never
terminated by a blank line (the terminating line is non-blank and of
indentation at most `block_indent` by construction), and (3) the content
of blank lines *other than the match line itself* cannot affect the
result provided the line at the returned start index is non-blank.  Both
provisos are necessary: a blank match line's own leading-whitespace count
(its full length, terminator included) is `match_indent`, so its content
always matters, and when the fallback start line is itself blank its
whitespace length becomes `block_indent` and can change the result (see
the counterexample). -/
theorem indent_blank_invisible :
    (∀ (lines : List Line) (mI i s : Nat), indentBack lines mI i = some s →
      blank (lines.getD s []) = false) ∧
    (∀ (lines : List Line) (bI fuel i e : Nat), 1 ≤ i →
      indentFwd lines bI fuel i = some e → blank (lines.getD (e+1) []) = false) ∧
    (∀ (A B : List Line) (mi : Nat), sameModBlank A B →
      A.getD mi [] = B.getD mi [] →
      blank (A.getD (find_indentation_block A mi).1 []) = false →
      find_indentation_block A mi = find_indentation_block B mi) := by
  refine ⟨?_, ?_, ?_⟩
  · intro lines mI i s h
    exact indentBack_nonblank lines mI i s h
  · intro lines bI fuel i e hi h
    exact (indentFwd_terminator lines bI fuel i e hi h).1
  · intro A B mi hsmb hm hnb
    have h1 : indentStart A mi = indentStart B mi := by
      unfold indentStart
      rw [hm, indentBack_congr A B (indentOf (B.getD mi [])) hsmb mi]
    have h2 : blank (A.getD (indentStart A mi) []) = false := hnb
    have h3 : A.getD (indentStart A mi) [] = B.getD (indentStart B mi) [] := by
      rw [← h1]
      exact smb_eq_of_nonblank A B hsmb _ h2
    unfold find_indentation_block
    rw [h3, h1, hsmb.1, indentFwd_congr A B (indentOf (B.getD (indentStart B mi) [])) hsmb
      (B.length - (mi + 1)) (mi + 1)]

/-- Witness pair for C7 (amended): same file up to the blank line 1. -/
def exBlankC : List Line := ["def f():".toList, "".toList, "    x".toList]

/-- Second component of the C7 witness pair. -/
def exBlankD : List Line := ["def f():".toList, "  ".toList, "    x".toList]

/-- Witness for C7 (amended): with a non-blank start line (`"def f():"`),
changing the blank line's whitespace does not change the result. -/
theorem indent_blank_invisible_witness :
    find_indentation_block exBlankC 2 = find_indentation_block exBlankD 2 :=
  indent_blank_invisible.2.2 exBlankC exBlankD 2 (by decide) (by decide) (by decide)

/-- Variant of `braceBack` with every list access bounds-checked: the outer `none`
models a Python `IndexError` on `lines[i]`; in-bounds reads agree with
`lines.getD`. -/
def braceBackE (lines : List Line) : Nat → Nat → Nat → Option (Option Nat)
  | 0, ob, cb =>
    if 0 < lines.length then
      if hasBlockKeyword (lines.getD 0 []) then some (some 0)
      else if cb + closesAt lines 0 < ob + opensAt lines 0 then some (some 0)
      else some none
    else none
  | i+1, ob, cb =>
    if i+1 < lines.length then
      if hasBlockKeyword (lines.getD (i+1) []) then some (some (i+1))
      else if cb + closesAt lines (i+1) < ob + opensAt lines (i+1) then some (some (i+1))
      else braceBackE lines i (ob + opensAt lines (i+1)) (cb + closesAt lines (i+1))
    else none

theorem braceBackE_eq (lines : List Line) :
    ∀ i ob cb, i < lines.length →
      braceBackE lines i ob cb = some (braceBack lines i ob cb) := by
  intro i
  induction i with
  | zero =>
    intro ob cb h
    simp only [braceBackE, braceBack]
    rw [if_pos h]
    split_ifs <;> rfl
  | succ i ih =>
    intro ob cb h
    simp only [braceBackE, braceBack]
    rw [if_pos h]
    split_ifs
    · rfl
    · rfl
    · exact ih _ _ (by omega)

/-- Variant of `braceFwd` with every list access bounds-checked. -/
def braceFwdE (lines : List Line) : Nat → Nat → Nat → Nat → Option (Option Nat)
  | 0, _, _, _ => some none
  | fuel+1, i, ob, cb =>
    if i < lines.length then
      if ob + opensAt lines i < cb + closesAt lines i then some (some i)
      else braceFwdE lines fuel (i+1) (ob + opensAt lines i) (cb + closesAt lines i)
    else none

theorem braceFwdE_eq (lines : List Line) :
    ∀ fuel i ob cb, i + fuel ≤ lines.length →
      braceFwdE lines fuel i ob cb = some (braceFwd lines fuel i ob cb) := by
  intro fuel
  induction fuel with
  | zero => intro i ob cb _; rfl
  | succ fuel ih =>
    intro i ob cb h
    simp only [braceFwdE, braceFwd]
    rw [if_pos (by omega)]
    split_ifs
    · rfl
    · exact ih _ _ _ (by omega)

/-- Variant of `find_brace_block` with every list access bounds-checked; `none`
models an uncaught `IndexError` anywhere in the computation. -/
def find_brace_blockE (lines : List Line) (mi : Nat) : Option (Nat × Nat) :=
  if mi < lines.length then
    (braceBackE lines mi 0 0).bind (fun r =>
      match r with
      | none => some (mi - 3, min (lines.length - 1) (mi + 3))
      | some s =>
        (braceFwdE lines (lines.length - (mi + 1)) (mi + 1)
            (opensAt lines mi) (closesAt lines mi)).bind (fun r2 =>
          some (s, r2.getD (min (lines.length - 1) (mi + 3)))))
  else none

theorem find_brace_blockE_eq (lines : List Line) (mi : Nat) (h : mi < lines.length) :
    find_brace_blockE lines mi = some (find_brace_block lines mi) := by
  unfold find_brace_blockE find_brace_block
  rw [if_pos h, braceBackE_eq lines mi 0 0 h]
  simp only [Option.some_bind]
  cases hb : braceBack lines mi 0 0 with
  | none => rfl
  | some s =>
    rw [braceFwdE_eq lines (lines.length - (mi + 1)) (mi + 1)
      (opensAt lines mi) (closesAt lines mi) (by omega)]
    simp only [Option.some_bind]

/-- Variant of `probeAux` with every list access bounds-checked. -/
def probeAuxE (lines : List Line) : Nat → Nat → Option (Option Nat)
  | _, 0 => some none
  | j, fuel+1 =>
    if j < lines.length then
      if endsWithColon (lines.getD j []) then some (some j)
      else probeAuxE lines (j-1) fuel
    else none

theorem probeAuxE_eq (lines : List Line) :
    ∀ fuel j, j < lines.length →
      probeAuxE lines j fuel = some (probeAux lines j fuel) := by
  intro fuel
  induction fuel with
  | zero => intro j _; rfl
  | succ fuel ih =>
    intro j h
    simp only [probeAuxE, probeAux]
    rw [if_pos h]
    split_ifs
    · rfl
    · exact ih _ (by omega)

/-- Variant of `indentBack` with every list access bounds-checked. -/
def indentBackE (lines : List Line) (mI : Nat) : Nat → Option (Option Nat)
  | 0 =>
    if 0 < lines.length then
      if blank (lines.getD 0 []) then some none
      else if indentOf (lines.getD 0 []) < mI then
        (if endsWithColon (lines.getD 0 []) then some (some 0) else some none)
      else some none
    else none
  | i+1 =>
    if i+1 < lines.length then
      if blank (lines.getD (i+1) []) then indentBackE lines mI i
      else if indentOf (lines.getD (i+1) []) < mI then
        (if endsWithColon (lines.getD (i+1) []) then some (some (i+1))
         else probeAuxE lines (i+1) (min (i+1) 5))
      else indentBackE lines mI i
    else none

theorem indentBackE_eq (lines : List Line) (mI : Nat) :
    ∀ i, i < lines.length → indentBackE lines mI i = some (indentBack lines mI i) := by
  intro i
  induction i with
  | zero =>
    intro h
    simp only [indentBackE, indentBack]
    rw [if_pos h]
    split_ifs <;> rfl
  | succ i ih =>
    intro h
    simp only [indentBackE, indentBack]
    rw [if_pos h]
    split_ifs
    · exact ih (by omega)
    · rfl
    · exact probeAuxE_eq lines (min (i+1) 5) (i+1) h
    · exact ih (by omega)

/-- Variant of `indentFwd` with every list access bounds-checked. -/
def indentFwdE (lines : List Line) (blockIndent : Nat) : Nat → Nat → Option (Option Nat)
  | 0, _ => some none
  | fuel+1, i =>
    if i < lines.length then
      if blank (lines.getD i []) then indentFwdE lines blockIndent fuel (i+1)
      else if indentOf (lines.getD i []) ≤ blockIndent then some (some (i - 1))
      else indentFwdE lines blockIndent fuel (i+1)
    else none

theorem indentFwdE_eq (lines : List Line) (bI : Nat) :
    ∀ fuel i, i + fuel ≤ lines.length →
      indentFwdE lines bI fuel i = some (indentFwd lines bI fuel i) := by
  intro fuel
  induction fuel with
  | zero => intro i _; rfl
  | succ fuel ih =>
    intro i h
    simp only [indentFwdE, indentFwd]
    rw [if_pos (by omega)]
    split_ifs
    · exact ih _ (by omega)
    · rfl
    · exact ih _ (by omega)

/-- Variant of `find_indentation_block` with every list access bounds-checked,
including the re-read `lines[start_line]` used to recompute
`block_indent` (source line 936). -/
def find_indentation_blockE (lines : List Line) (mi : Nat) : Option (Nat × Nat) :=
  if mi < lines.length then
    (indentBackE lines (indentOf (lines.getD mi [])) mi).bind (fun r =>
      if r.getD (mi - 3) < lines.length then
        (indentFwdE lines (indentOf (lines.getD (r.getD (mi - 3)) []))
            (lines.length - (mi + 1)) (mi + 1)).bind (fun r2 =>
          some (r.getD (mi - 3), r2.getD (min (lines.length - 1) (mi + 3))))
      else none)
  else none

theorem find_indentation_blockE_eq (lines : List Line) (mi : Nat) (h : mi < lines.length) :
    find_indentation_blockE lines mi = some (find_indentation_block lines mi) := by
  unfold find_indentation_blockE find_indentation_block indentStart
  rw [if_pos h, indentBackE_eq lines (indentOf (lines.getD mi [])) mi h]
  simp only [Option.some_bind]
  have hsle : (indentBack lines (indentOf (lines.getD mi [])) mi).getD (mi - 3)
      < lines.length := by
    cases hb : indentBack lines (indentOf (lines.getD mi [])) mi with
    | none =>
      show mi - 3 < lines.length
      omega
    | some s =>
      show s < lines.length
      have := indentBack_le lines _ mi s hb
      omega
  rw [if_pos hsle, indentFwdE_eq lines
    (indentOf (lines.getD ((indentBack lines (indentOf (lines.getD mi [])) mi).getD (mi - 3)) []))
    (lines.length - (mi + 1)) (mi + 1) (by omega)]
  simp only [Option.some_bind]

/-- C9: under the precondition (non-empty line sequence, in-bounds match
index) both finders are total: the bounds-checked versions, in which any
out-of-bounds list access aborts the computation with `none`, never abort
and return exactly the unchecked finders' ranges — so every list access
(including `lines[start_line]`) is in bounds, no error is signaled, and a
range is always returned. -/
theorem finders_total (lines : List Line) (mi : Nat)
    (h0 : 0 < lines.length) (hmi : mi < lines.length) :
    find_brace_blockE lines mi = some (find_brace_block lines mi) ∧
    find_indentation_blockE lines mi = some (find_indentation_block lines mi) :=
  ⟨find_brace_blockE_eq lines mi hmi, find_indentation_blockE_eq lines mi hmi⟩

/-- Witness for C9 at the spec's four-line indentation example. -/
theorem finders_total_witness :
    find_brace_blockE exPy 1 = some (find_brace_block exPy 1) ∧
    find_indentation_blockE exPy 1 = some (find_indentation_block exPy 1) :=
  finders_total exPy 1 (by decide) (by decide)

